import Mathlib

/-!
Shallow embedding of the timeline engine of the Director video editor
(`src/app/components/editor/timeline.py`).  Times are milliseconds as `Int`
(Python ints), pixel coordinates are `Int`, and the zoom factor is a rational
number standing for the Python float.  `int(...)` truncation toward zero is
modelled by `qtrunc`.  Mutation of the widget state is modelled by explicit
state passing over `List Track`; Qt signal emissions are modelled as lists of
`TimelineEvent` values returned next to the new state.
-/

namespace Director

/-- `COLORS["accent"]` from `app/utils/styles.py`, the default clip color. -/
def accentColor : String := "#e85d04"

/-- `TrackType` enum from `timeline.py`. -/
inductive TrackType where
  | VIDEO
  | AUDIO
  | TEXT
deriving DecidableEq, Repr

/-- The `Clip` dataclass: all nine fields, in source order. -/
structure Clip where
  id : String
  name : String
  file_path : String
  track_index : Int
  start_time : Int
  duration : Int
  in_point : Int
  out_point : Int
  color : String
deriving DecidableEq, Repr

/-- `Clip.end_time` property: `start_time + duration`. -/
def Clip.end_time (c : Clip) : Int := c.start_time + c.duration

/-- The `Track` dataclass. -/
structure Track where
  id : String
  name : String
  track_type : TrackType
  clips : List Clip
  height : Int
  muted : Bool
  locked : Bool
deriving DecidableEq, Repr

/-- Python `int(q)`: truncation toward zero. -/
def qtrunc (q : ℚ) : Int := if 0 ≤ q then ⌊q⌋ else ⌈q⌉

/-- `TimelineTrackWidget._time_to_x`:
`int(time_ms * (100 * zoom) / 1000 - offset)`. -/
def time_to_x (zoom : ℚ) (offset : Int) (time_ms : Int) : Int :=
  qtrunc ((time_ms : ℚ) * ((100 * zoom) / 1000) - (offset : ℚ))

/-- `TimelineTrackWidget._x_to_time`:
`int((x + offset) / ((100 * zoom) / 1000))`. -/
def x_to_time (zoom : ℚ) (offset : Int) (x : Int) : Int :=
  qtrunc (((x : ℚ) + (offset : ℚ)) / ((100 * zoom) / 1000))

/-- First clip with the given id together with its index
(the `for i, c in enumerate(...): if c.id == ...` scan). -/
def findWithIdx : List Clip → String → Option (Nat × Clip)
  | [], _ => none
  | c :: cs, cid =>
    if c.id = cid then some (0, c)
    else (findWithIdx cs cid).map (fun p => (p.1 + 1, p.2))

/-- Replace the first clip whose id matches (`track.clips[i] = Clip(...)` then
`break`). -/
def replaceFirst : List Clip → String → (Clip → Clip) → List Clip
  | [], _, _ => []
  | c :: cs, cid, f => if c.id = cid then f c :: cs else c :: replaceFirst cs cid f

/-- One left-trim pointer sample of `mouseMoveEvent` (`TrimHandle.LEFT` branch).
`origStart`/`origDuration` are the values captured at gesture start and
`dxTime` is `x_to_time(x) - x_to_time(drag_start_x)`. -/
def trimLeftSample (clips : List Clip) (cid : String)
    (origStart origDuration dxTime : Int) : List Clip :=
  replaceFirst clips cid (fun c =>
    let newStart := max 0 (origStart + dxTime)
    let durationChange := origStart - newStart
    let newDuration := max 500 (origDuration + durationChange)
    { c with
      start_time := newStart
      duration := newDuration
      in_point := c.in_point + (origStart - newStart) })

/-- One right-trim pointer sample of `mouseMoveEvent` (`TrimHandle.RIGHT`
branch). -/
def trimRightSample (clips : List Clip) (cid : String)
    (origDuration dxTime : Int) : List Clip :=
  replaceFirst clips cid (fun c =>
    let newDuration := max 500 (origDuration + dxTime)
    { c with
      duration := newDuration
      out_point := c.in_point + newDuration })

/-- One drag pointer sample of `mouseMoveEvent` (the `_dragging` branch);
`dx` is the cumulative pixel delta `x - drag_start_x` and `dragClipStart` the
start time captured at press. -/
def moveSample (clips : List Clip) (cid : String) (dragClipStart : Int)
    (zoom : ℚ) (offset : Int) (dx : Int) : List Clip :=
  replaceFirst clips cid (fun c =>
    { c with
      start_time :=
        max 0 (dragClipStart + (x_to_time zoom offset dx - x_to_time zoom offset 0)) })

/-- Replace the element at index `i` by `a` and insert `b` right after it
(`track.clips[i] = first_clip; track.clips.insert(i + 1, second_clip)`). -/
def replaceInsertAt : List Clip → Nat → Clip → Clip → List Clip
  | [], _, _, _ => []
  | _ :: cs, 0, a, b => a :: b :: cs
  | c :: cs, n + 1, a, b => c :: replaceInsertAt cs n a b

/-- `Timeline._on_clip_split`: walk the tracks for the first clip whose id
matches; if the split point is strictly inside the passed clip, overwrite the
slot with the first part and insert the second part after it, else do
nothing; in either case stop at the first id match. -/
def on_clip_split : List Track → Clip → Int → List Track
  | [], _, _ => []
  | tr :: ts, clip, split_time =>
    match findWithIdx tr.clips clip.id with
    | some (i, _) =>
      if clip.start_time < split_time ∧ split_time < clip.end_time then
        let first_duration := split_time - clip.start_time
        let first_clip : Clip :=
          Clip.mk clip.id clip.name clip.file_path clip.track_index
            clip.start_time first_duration clip.in_point
            (clip.in_point + first_duration) clip.color
        let second_clip : Clip :=
          Clip.mk (clip.id ++ "_split") (clip.name ++ " (2)") clip.file_path
            clip.track_index split_time (clip.duration - first_duration)
            (clip.in_point + first_duration) clip.out_point clip.color
        { tr with clips := replaceInsertAt tr.clips i first_clip second_clip } :: ts
      else tr :: ts
    | none => tr :: on_clip_split ts clip split_time

/-- Append a clip to the clip list of the track at index `i`. -/
def appendClipAt : List Track → Nat → Clip → List Track
  | [], _, _ => []
  | tr :: ts, 0, c => { tr with clips := tr.clips ++ [c] } :: ts
  | tr :: ts, n + 1, c => tr :: appendClipAt ts n c

/-- `Timeline.add_clip`: append only when `0 <= track_index < len(tracks)`. -/
def add_clip (tracks : List Track) (track_index : Int) (clip : Clip) : List Track :=
  if 0 ≤ track_index ∧ track_index < (tracks.length : Int) then
    appendClipAt tracks track_index.toNat clip
  else tracks

/-- Timeline-level notifications (`clip_deleted` / `clip_changed` signals). -/
inductive TimelineEvent where
  | clipDeleted
  | clipChanged
deriving DecidableEq, Repr

/-- `TimelineTrackWidget._delete_clip` followed by the wired
`Timeline._on_clip_deleted`: if the clip value is in the track's list, remove
its first occurrence and emit `clip_deleted` then `clip_changed`; otherwise do
nothing and emit nothing. -/
def delete_clip (clips : List Clip) (clip : Clip) : List Clip × List TimelineEvent :=
  if clip ∈ clips then
    (clips.erase clip, [TimelineEvent.clipDeleted, TimelineEvent.clipChanged])
  else (clips, [])

/-- First clip with a given id (`for clip in track.clips: if clip.id == ...`). -/
def findById : List Clip → String → Option Clip
  | [], _ => none
  | c :: cs, cid => if c.id = cid then some c else findById cs cid

/-- `Timeline.remove_clip`: remove the first clip with the given id from the
first track holding one, emitting `clip_changed`; no-op (and no event) when no
track holds the id. -/
def remove_clip : List Track → String → List Track × List TimelineEvent
  | [], _ => ([], [])
  | tr :: ts, cid =>
    match findById tr.clips cid with
    | some c => ({ tr with clips := tr.clips.erase c } :: ts, [TimelineEvent.clipChanged])
    | none =>
      let r := remove_clip ts cid
      (tr :: r.1, r.2)

/-- `Timeline.get_all_clips`: flatten track by track. -/
def get_all_clips : List Track → List Clip
  | [] => []
  | tr :: ts => tr.clips ++ get_all_clips ts

/-- A persisted clip record: a plain dict whose keys may be absent.
`none` models a missing key. -/
structure ClipRecord where
  id : Option String
  name : Option String
  file_path : Option String
  track_index : Option Int
  start_time : Option Int
  duration : Option Int
  in_point : Option Int
  out_point : Option Int
  color : Option String
deriving DecidableEq, Repr

/-- One entry of `Timeline.get_clips_data`: every key present. -/
def clip_to_record (c : Clip) : ClipRecord :=
  ⟨some c.id, some c.name, some c.file_path, some c.track_index, some c.start_time,
   some c.duration, some c.in_point, some c.out_point, some c.color⟩

/-- `Timeline.get_clips_data`. -/
def get_clips_data (tracks : List Track) : List ClipRecord :=
  (get_all_clips tracks).map clip_to_record

/-- `Timeline.clear_tracks`: empty every track's clip list, keep the tracks. -/
def clear_tracks (tracks : List Track) : List Track :=
  tracks.map (fun tr => { tr with clips := [] })

/-- The track created by one iteration of the auto-create loop in
`load_clips` (`add_track(f"Track {track_idx + 1}", ...)` with the id built
from the current track count). -/
def trackFor (track_idx : Int) (count : Nat) : Track :=
  { id := "track_" ++ toString count
    name := "Track " ++ toString (track_idx + 1)
    track_type := if track_idx % 2 = 0 then TrackType.VIDEO else TrackType.AUDIO
    clips := []
    height := 60
    muted := false
    locked := false }

/-- `n` iterations of the `while len(self._tracks) <= track_idx` body. -/
def growAux (tracks : List Track) (track_idx : Int) : Nat → List Track
  | 0 => tracks
  | n + 1 => growAux (tracks ++ [trackFor track_idx tracks.length]) track_idx n

/-- The `while len(self._tracks) <= track_idx: self.add_track(...)` loop of
`load_clips`.  Each iteration appends exactly one track, so the loop runs
`(track_idx + 1 - len).toNat` times. -/
def growTracks (tracks : List Track) (track_idx : Int) : List Track :=
  growAux tracks track_idx (track_idx + 1 - tracks.length).toNat

/-- The `Clip(...)` construction inside `load_clips`: `data["id"]`,
`data["name"]`, `data["file_path"]` raise `KeyError` when absent (modelled as
`none`); the remaining keys fall back to `data.get` defaults. -/
def record_to_clip (r : ClipRecord) : Option Clip :=
  match r.id, r.name, r.file_path with
  | some i, some n, some f =>
    some { id := i, name := n, file_path := f
           track_index := r.track_index.getD 0
           start_time := r.start_time.getD 0
           duration := r.duration.getD 1000
           in_point := r.in_point.getD 0
           out_point := r.out_point.getD 0
           color := r.color.getD accentColor }
  | _, _, _ => none

/-- Processing of one record in the `load_clips` loop body: read the target
index, run the track auto-create loop, then either skip the record (caught
`KeyError`) or append the clip via Python list indexing
(`self._tracks[track_idx].clips.append(clip)`), which admits negative indices
from the end and raises an uncaught `IndexError` outside `[-len, len)`. -/
def loadOne (tracks : List Track) (r : ClipRecord) : Except String (List Track) :=
  let track_idx := r.track_index.getD 0
  let grown := growTracks tracks track_idx
  match record_to_clip r with
  | none => Except.ok grown
  | some c =>
    if 0 ≤ track_idx ∧ track_idx < (grown.length : Int) then
      Except.ok (appendClipAt grown track_idx.toNat c)
    else if track_idx < 0 ∧ 0 ≤ (grown.length : Int) + track_idx then
      Except.ok (appendClipAt grown ((grown.length : Int) + track_idx).toNat c)
    else Except.error "IndexError: list index out of range"

/-- The record loop of `load_clips`; an uncaught exception aborts it. -/
def loadRecords : List Track → List ClipRecord → Except String (List Track)
  | tracks, [] => Except.ok tracks
  | tracks, r :: rs =>
    match loadOne tracks r with
    | Except.ok tracks1 => loadRecords tracks1 rs
    | Except.error e => Except.error e

/-- `Timeline.load_clips`: clear all tracks, then load record by record. -/
def load_clips (tracks : List Track) (records : List ClipRecord) :
    Except String (List Track) :=
  loadRecords (clear_tracks tracks) records

/-! ### Helper lemmas about the list-scan primitives -/

lemma findWithIdx_lt_length {clips : List Clip} {cid : String} {i : Nat} {c : Clip}
    (h : findWithIdx clips cid = some (i, c)) : i < clips.length := by
  induction clips generalizing i c with
  | nil => simp [findWithIdx] at h
  | cons a cs ih =>
    by_cases ha : a.id = cid
    · simp [findWithIdx, ha] at h
      obtain ⟨hi, _⟩ := h
      simp [← hi]
    · simp only [findWithIdx, ha, if_false, Option.map_eq_some'] at h
      obtain ⟨⟨i', c'⟩, hfind, hic⟩ := h
      simp only [Prod.mk.injEq] at hic
      have := ih hfind
      simp only [List.length_cons]
      omega

lemma findWithIdx_get {clips : List Clip} {cid : String} {i : Nat} {c : Clip}
    (h : findWithIdx clips cid = some (i, c)) : c ∈ clips ∧ c.id = cid := by
  induction clips generalizing i c with
  | nil => simp [findWithIdx] at h
  | cons a cs ih =>
    by_cases ha : a.id = cid
    · simp [findWithIdx, ha] at h
      obtain ⟨hi, hc⟩ := h
      subst hc
      exact ⟨List.mem_cons_self _ _, ha⟩
    · simp only [findWithIdx, ha, if_false, Option.map_eq_some'] at h
      obtain ⟨⟨i', c'⟩, hfind, hic⟩ := h
      simp only [Prod.mk.injEq] at hic
      obtain ⟨hi, hc⟩ := hic
      subst hc
      exact ⟨List.mem_cons_of_mem _ (ih hfind).1, (ih hfind).2⟩

lemma replaceFirst_eq {clips : List Clip} {cid : String} {i : Nat} {c : Clip}
    (f : Clip → Clip) (h : findWithIdx clips cid = some (i, c)) :
    replaceFirst clips cid f = clips.take i ++ f c :: clips.drop (i + 1) := by
  induction clips generalizing i c with
  | nil => simp [findWithIdx] at h
  | cons a cs ih =>
    by_cases ha : a.id = cid
    · simp [findWithIdx, ha] at h
      obtain ⟨hi, hc⟩ := h
      subst hc
      simp [replaceFirst, ha, ← hi]
    · simp only [findWithIdx, ha, if_false, Option.map_eq_some'] at h
      obtain ⟨⟨i', c'⟩, hfind, hic⟩ := h
      simp only [Prod.mk.injEq] at hic
      obtain ⟨hi, hc⟩ := hic
      subst hc
      subst hi
      simp [replaceFirst, ha, ih hfind]

lemma replaceInsertAt_eq {l : List Clip} {i : Nat} (a b : Clip) (h : i < l.length) :
    replaceInsertAt l i a b = l.take i ++ a :: b :: l.drop (i + 1) := by
  induction l generalizing i with
  | nil => simp at h
  | cons x xs ih =>
    cases i with
    | zero => simp [replaceInsertAt]
    | succ n =>
      simp only [List.length_cons, Nat.succ_lt_succ_iff] at h
      simp [replaceInsertAt, ih h]

lemma mem_replaceInsertAt {l : List Clip} {i : Nat} {a b c : Clip}
    (h : c ∈ replaceInsertAt l i a b) : c = a ∨ c = b ∨ c ∈ l := by
  induction l generalizing i with
  | nil => simp [replaceInsertAt] at h
  | cons x xs ih =>
    cases i with
    | zero =>
      simp [replaceInsertAt] at h
      rcases h with h | h | h
      · exact Or.inl h
      · exact Or.inr (Or.inl h)
      · exact Or.inr (Or.inr (List.mem_cons_of_mem _ h))
    | succ n =>
      simp only [replaceInsertAt, List.mem_cons] at h
      rcases h with h | h
      · exact Or.inr (Or.inr (by simp [h]))
      · rcases ih h with h' | h' | h'
        · exact Or.inl h'
        · exact Or.inr (Or.inl h')
        · exact Or.inr (Or.inr (List.mem_cons_of_mem _ h'))

lemma mem_replaceFirst {clips : List Clip} {cid : String} {f : Clip → Clip} {c : Clip}
    (h : c ∈ replaceFirst clips cid f) : (∃ x ∈ clips, c = f x) ∨ c ∈ clips := by
  induction clips with
  | nil => simp [replaceFirst] at h
  | cons a cs ih =>
    by_cases ha : a.id = cid
    · simp only [replaceFirst, ha, if_true, List.mem_cons] at h
      rcases h with h | h
      · exact Or.inl ⟨a, List.mem_cons_self _ _, h⟩
      · exact Or.inr (List.mem_cons_of_mem _ h)
    · simp only [replaceFirst, ha, if_false, List.mem_cons] at h
      rcases h with h | h
      · exact Or.inr (by simp [h])
      · rcases ih h with ⟨x, hx, hc⟩ | h'
        · exact Or.inl ⟨x, List.mem_cons_of_mem _ hx, hc⟩
        · exact Or.inr (List.mem_cons_of_mem _ h')

lemma findById_eq_none {clips : List Clip} {cid : String}
    (h : ∀ c ∈ clips, c.id ≠ cid) : findById clips cid = none := by
  induction clips with
  | nil => rfl
  | cons a cs ih =>
    simp only [findById, h a (List.mem_cons_self _ _), if_false]
    exact ih fun c hc => h c (List.mem_cons_of_mem _ hc)

/-! ### Claim theorems -/

/-- C10: for every `track_index` outside `[0, number of tracks)` and every
clip, `add_clip` leaves every track's clip collection unchanged and raises no
exception (it is a total function that returns the input unchanged). -/
theorem c10_add_clip_out_of_range :
    ∀ (tracks : List Track) (track_index : Int) (clip : Clip),
      ¬ (0 ≤ track_index ∧ track_index < (tracks.length : Int)) →
      add_clip tracks track_index clip = tracks := by
  intro tracks track_index clip h
  simp [add_clip, h]

theorem c10_add_clip_out_of_range_witness :
    add_clip
      [Track.mk "track_0" "Video 1" TrackType.VIDEO [] 60 false false] 5
      (Clip.mk "A" "A" "/m.mp4" 0 0 1000 0 1000 accentColor) =
    [Track.mk "track_0" "Video 1" TrackType.VIDEO [] 60 false false] :=
  c10_add_clip_out_of_range _ 5 _ (by decide)

/-- C8: deleting an id absent from every track (`remove_clip`) changes no
track, raises nothing and emits nothing; deleting a present clip through the
widget delete path wired into `_on_clip_deleted` removes its first occurrence
and emits `clip_deleted` followed by `clip_changed`. -/
theorem c8_delete_events :
    (∀ (tracks : List Track) (cid : String),
        (∀ tr ∈ tracks, ∀ c ∈ tr.clips, c.id ≠ cid) →
        remove_clip tracks cid = (tracks, [])) ∧
    (∀ (clips : List Clip) (clip : Clip), clip ∈ clips →
        delete_clip clips clip =
          (clips.erase clip, [TimelineEvent.clipDeleted, TimelineEvent.clipChanged]) ∧
        (clips.erase clip).length + 1 = clips.length) := by
  constructor
  · intro tracks cid h
    induction tracks with
    | nil => rfl
    | cons tr ts ih =>
      have hnone : findById tr.clips cid = none :=
        findById_eq_none (h tr (List.mem_cons_self _ _))
      have hts := ih fun tr' htr' => h tr' (List.mem_cons_of_mem _ htr')
      simp [remove_clip, hnone, hts]
  · intro clips clip hmem
    refine ⟨by simp [delete_clip, hmem], ?_⟩
    have h1 := List.length_erase_of_mem hmem
    have h2 := List.length_pos_of_mem hmem
    omega

theorem c8_delete_events_witness :
    remove_clip
        [Track.mk "track_0" "Video 1" TrackType.VIDEO
          [Clip.mk "A" "A" "/m.mp4" 0 0 1000 0 1000 accentColor] 60 false false]
        "zzz" =
      ([Track.mk "track_0" "Video 1" TrackType.VIDEO
          [Clip.mk "A" "A" "/m.mp4" 0 0 1000 0 1000 accentColor] 60 false false], []) ∧
    (delete_clip [Clip.mk "A" "A" "/m.mp4" 0 0 1000 0 1000 accentColor]
          (Clip.mk "A" "A" "/m.mp4" 0 0 1000 0 1000 accentColor) =
        (([Clip.mk "A" "A" "/m.mp4" 0 0 1000 0 1000 accentColor]).erase
            (Clip.mk "A" "A" "/m.mp4" 0 0 1000 0 1000 accentColor),
          [TimelineEvent.clipDeleted, TimelineEvent.clipChanged]) ∧
      (([Clip.mk "A" "A" "/m.mp4" 0 0 1000 0 1000 accentColor]).erase
            (Clip.mk "A" "A" "/m.mp4" 0 0 1000 0 1000 accentColor)).length + 1 =
        ([Clip.mk "A" "A" "/m.mp4" 0 0 1000 0 1000 accentColor]).length) :=
  ⟨c8_delete_events.1 _ "zzz" (by decide), c8_delete_events.2 _ _ (by decide)⟩

/-- C9: splitting a clip and then splitting again the part that kept the
original id produces two clips with the equal id `"A_split"` in the same
track: split-generated ids are not collision-safe. -/
theorem c9_split_id_collision :
    (on_clip_split
        (on_clip_split
          [Track.mk "track_0" "Video 1" TrackType.VIDEO
            [Clip.mk "A" "A" "/m.mp4" 0 0 2000 0 2000 accentColor] 60 false false]
          (Clip.mk "A" "A" "/m.mp4" 0 0 2000 0 2000 accentColor) 1000)
        (Clip.mk "A" "A" "/m.mp4" 0 0 1000 0 1000 accentColor) 500).map
      (fun tr => tr.clips.map Clip.id) = [["A", "A_split", "A_split"]] ∧
    ¬ (["A", "A_split", "A_split"] : List String).Nodup := by
  decide

/-- C1 counterexample: the clip `{start 1000, duration 1000, in 0, out 1000}`
satisfies `out_point - in_point == duration`, but one left-trim sample with
time delta `-500` yields `{start 500, duration 1500, in 500, out 1000}`,
which violates it (`1000 - 500 ≠ 1500`). -/
theorem c1_left_trim_breaks_invariant :
    (Clip.mk "a" "a" "/m.mp4" 0 1000 1000 0 1000 accentColor).out_point -
        (Clip.mk "a" "a" "/m.mp4" 0 1000 1000 0 1000 accentColor).in_point =
      (Clip.mk "a" "a" "/m.mp4" 0 1000 1000 0 1000 accentColor).duration ∧
    trimLeftSample [Clip.mk "a" "a" "/m.mp4" 0 1000 1000 0 1000 accentColor] "a"
        1000 1000 (-500) =
      [Clip.mk "a" "a" "/m.mp4" 0 500 1500 500 1000 accentColor] ∧
    ¬ ((Clip.mk "a" "a" "/m.mp4" 0 500 1500 500 1000 accentColor).out_point -
          (Clip.mk "a" "a" "/m.mp4" 0 500 1500 500 1000 accentColor).in_point =
        (Clip.mk "a" "a" "/m.mp4" 0 500 1500 500 1000 accentColor).duration) := by
  decide

/-- C1 (amended): `out_point - in_point == duration` is preserved by every
right-trim sample and by every split (given the passed clip satisfies it);
a left-trim sample does not preserve it in general, since it changes the
duration by the start delta while moving `in_point` in the same direction and
keeping `out_point`. -/
theorem c1_invariant_right_trim_and_split :
    (∀ (clips : List Clip) (cid : String) (origDuration dxTime : Int),
        (∀ c ∈ clips, c.out_point - c.in_point = c.duration) →
        ∀ c ∈ trimRightSample clips cid origDuration dxTime,
          c.out_point - c.in_point = c.duration) ∧
    (∀ (tracks : List Track) (clip : Clip) (split_time : Int),
        clip.out_point - clip.in_point = clip.duration →
        (∀ tr ∈ tracks, ∀ c ∈ tr.clips, c.out_point - c.in_point = c.duration) →
        ∀ tr ∈ on_clip_split tracks clip split_time, ∀ c ∈ tr.clips,
          c.out_point - c.in_point = c.duration) := by
  constructor
  · intro clips cid origDuration dxTime h c hc
    unfold trimRightSample at hc
    rcases mem_replaceFirst hc with ⟨x, _, rfl⟩ | hc'
    · simp
    · exact h c hc'
  · intro tracks clip split_time hclip
    induction tracks with
    | nil =>
      intro _ tr htr
      simp [on_clip_split] at htr
    | cons tr0 ts ih =>
      intro h tr htr c hc
      cases hfind : findWithIdx tr0.clips clip.id with
      | none =>
        simp only [on_clip_split, hfind] at htr
        rcases List.mem_cons.mp htr with rfl | htr'
        · exact h tr (List.mem_cons_self _ _) c hc
        · exact ih (fun tr' h1 c' h2 => h tr' (List.mem_cons_of_mem _ h1) c' h2)
            tr htr' c hc
      | some p =>
        obtain ⟨i, c0⟩ := p
        simp only [on_clip_split, hfind] at htr
        by_cases hcond : clip.start_time < split_time ∧ split_time < clip.end_time
        · rw [if_pos hcond] at htr
          rcases List.mem_cons.mp htr with rfl | htr'
          · simp only at hc
            rcases mem_replaceInsertAt hc with rfl | rfl | hmem
            · simp
            · simp
              omega
            · exact h tr0 (List.mem_cons_self _ _) c hmem
          · exact h tr (List.mem_cons_of_mem _ htr') c hc
        · rw [if_neg hcond] at htr
          exact h tr htr c hc

theorem c1_invariant_right_trim_and_split_witness :
    (∀ c ∈ trimRightSample
        [Clip.mk "a" "a" "/m.mp4" 0 1000 1000 0 1000 accentColor] "a" 1000 300,
      c.out_point - c.in_point = c.duration) ∧
    (∀ tr ∈ on_clip_split
        [Track.mk "track_0" "Video 1" TrackType.VIDEO
          [Clip.mk "a" "a" "/m.mp4" 0 1000 1000 0 1000 accentColor] 60 false false]
        (Clip.mk "a" "a" "/m.mp4" 0 1000 1000 0 1000 accentColor) 1400,
      ∀ c ∈ tr.clips, c.out_point - c.in_point = c.duration) :=
  ⟨c1_invariant_right_trim_and_split.1 _ "a" 1000 300 (by decide),
   c1_invariant_right_trim_and_split.2 _ _ 1400 (by decide) (by decide)⟩

/-- C4: one left-trim sample with cumulative delta `dxTime` rewrites the
targeted clip's slot with `start_time = max 0 (origStart + dxTime)`,
`duration = max 500 (origDuration + (origStart - new_start))`, `in_point`
shifted by exactly `origStart - new_start`, `out_point` untouched; one
right-trim sample keeps `start_time` and `in_point`, sets
`duration = max 500 (origDuration + dxTime)` and
`out_point = in_point + duration`; both durations are at least 500. -/
theorem c4_trim_formulas :
    ∀ (clips : List Clip) (cid : String) (origStart origDuration dxTime : Int)
      (i : Nat) (c : Clip),
      findWithIdx clips cid = some (i, c) →
      trimLeftSample clips cid origStart origDuration dxTime =
        clips.take i ++
          { c with
            start_time := max 0 (origStart + dxTime)
            duration :=
              max 500 (origDuration + (origStart - max 0 (origStart + dxTime)))
            in_point := c.in_point + (origStart - max 0 (origStart + dxTime)) } ::
          clips.drop (i + 1) ∧
      500 ≤ max 500 (origDuration + (origStart - max 0 (origStart + dxTime))) ∧
      trimRightSample clips cid origDuration dxTime =
        clips.take i ++
          { c with
            duration := max 500 (origDuration + dxTime)
            out_point := c.in_point + max 500 (origDuration + dxTime) } ::
          clips.drop (i + 1) ∧
      500 ≤ max 500 (origDuration + dxTime) := by
  intro clips cid origStart origDuration dxTime i c h
  refine ⟨?_, le_max_left _ _, ?_, le_max_left _ _⟩
  · unfold trimLeftSample
    rw [replaceFirst_eq _ h]
  · unfold trimRightSample
    rw [replaceFirst_eq _ h]

theorem c4_trim_formulas_witness :
    trimLeftSample [Clip.mk "a" "a" "/m.mp4" 0 700 900 100 1000 accentColor] "a"
        700 900 (-300) =
      [] ++
        { Clip.mk "a" "a" "/m.mp4" 0 700 900 100 1000 accentColor with
          start_time := max 0 (700 + (-300))
          duration := max 500 (900 + (700 - max 0 (700 + (-300))))
          in_point := 100 + (700 - max 0 (700 + (-300))) } ::
        ([Clip.mk "a" "a" "/m.mp4" 0 700 900 100 1000 accentColor].drop 1) ∧
      (500 : Int) ≤ max 500 (900 + (700 - max 0 (700 + (-300)))) ∧
      trimRightSample [Clip.mk "a" "a" "/m.mp4" 0 700 900 100 1000 accentColor] "a"
          900 (-300) =
        [] ++
          { Clip.mk "a" "a" "/m.mp4" 0 700 900 100 1000 accentColor with
            duration := max 500 (900 + (-300))
            out_point := 100 + max 500 (900 + (-300)) } ::
          ([Clip.mk "a" "a" "/m.mp4" 0 700 900 100 1000 accentColor].drop 1) ∧
      (500 : Int) ≤ max 500 (900 + (-300)) :=
  c4_trim_formulas _ "a" 700 900 (-300) 0 _ (by decide)

/-- C6: one move sample sets only `start_time`, to
`max 0 (dragClipStart + (x_to_time dx - x_to_time 0))`, which is nonnegative
for any delta; `duration`, `in_point`, `out_point`, `id` and `track_index`
(and all other fields) are unchanged. -/
theorem c6_move_formula :
    ∀ (clips : List Clip) (cid : String) (dragClipStart : Int) (zoom : ℚ)
      (offset dx : Int) (i : Nat) (c : Clip),
      findWithIdx clips cid = some (i, c) →
      moveSample clips cid dragClipStart zoom offset dx =
        clips.take i ++
          { c with
            start_time :=
              max 0 (dragClipStart +
                (x_to_time zoom offset dx - x_to_time zoom offset 0)) } ::
          clips.drop (i + 1) ∧
      0 ≤ max 0 (dragClipStart + (x_to_time zoom offset dx - x_to_time zoom offset 0)) := by
  intro clips cid dragClipStart zoom offset dx i c h
  refine ⟨?_, le_max_left _ _⟩
  unfold moveSample
  rw [replaceFirst_eq _ h]

theorem c6_move_formula_witness :
    moveSample [Clip.mk "a" "a" "/m.mp4" 0 700 900 100 1000 accentColor] "a"
        700 1 5 (-40) =
      [] ++
        { Clip.mk "a" "a" "/m.mp4" 0 700 900 100 1000 accentColor with
          start_time := max 0 (700 + (x_to_time 1 5 (-40) - x_to_time 1 5 0)) } ::
        ([Clip.mk "a" "a" "/m.mp4" 0 700 900 100 1000 accentColor].drop 1) ∧
    0 ≤ max 0 (700 + (x_to_time 1 5 (-40) - x_to_time 1 5 0)) :=
  c6_move_formula _ "a" 700 1 5 (-40) 0 _ (by decide)

/-- C3: when `start_time < split_time < end_time`, `_on_clip_split` overwrites
the clip's slot with the first part (same id, start and in point, duration
`split_time - start_time`, out point `in_point + duration`) and inserts
immediately after it the second part (suffixed id, start `split_time`,
duration `original - first`, in point shifted by the first duration, original
out point); when `split_time` is outside `(start_time, end_time)` every
track is left unchanged and no error is signaled. -/
theorem c3_split_semantics :
    (∀ (pre post : List Track) (tr : Track) (clip : Clip) (split_time : Int)
        (i : Nat) (c : Clip),
        (∀ tr' ∈ pre, findWithIdx tr'.clips clip.id = none) →
        findWithIdx tr.clips clip.id = some (i, c) →
        clip.start_time < split_time → split_time < clip.end_time →
        on_clip_split (pre ++ tr :: post) clip split_time =
          pre ++
            { tr with clips :=
                tr.clips.take i ++
                  (Clip.mk clip.id clip.name clip.file_path clip.track_index
                    clip.start_time (split_time - clip.start_time) clip.in_point
                    (clip.in_point + (split_time - clip.start_time)) clip.color) ::
                  (Clip.mk (clip.id ++ "_split") (clip.name ++ " (2)") clip.file_path
                    clip.track_index split_time
                    (clip.duration - (split_time - clip.start_time))
                    (clip.in_point + (split_time - clip.start_time))
                    clip.out_point clip.color) ::
                  tr.clips.drop (i + 1) } :: post) ∧
    (∀ (tracks : List Track) (clip : Clip) (split_time : Int),
        ¬ (clip.start_time < split_time ∧ split_time < clip.end_time) →
        on_clip_split tracks clip split_time = tracks) := by
  constructor
  · intro pre post tr clip split_time i c hpre hfind h1 h2
    induction pre with
    | nil =>
      simp only [List.nil_append, on_clip_split, hfind, if_pos (And.intro h1 h2)]
      rw [replaceInsertAt_eq _ _ (findWithIdx_lt_length hfind)]
    | cons p ps ih =>
      have hp := hpre p (List.mem_cons_self _ _)
      simp only [List.cons_append, on_clip_split, hp]
      exact congrArg (fun l => p :: l)
        (ih fun tr' htr' => hpre tr' (List.mem_cons_of_mem _ htr'))
  · intro tracks clip split_time h
    induction tracks with
    | nil => rfl
    | cons tr0 ts ih =>
      cases hfind : findWithIdx tr0.clips clip.id with
      | none =>
        simp only [on_clip_split, hfind]
        rw [ih]
      | some p =>
        obtain ⟨i, c⟩ := p
        simp only [on_clip_split, hfind]
        rw [if_neg h]

theorem c3_split_semantics_witness :
    on_clip_split
        ([Track.mk "track_1" "Audio 1" TrackType.AUDIO [] 60 false false] ++
          Track.mk "track_0" "Video 1" TrackType.VIDEO
            [Clip.mk "A" "A" "/m.mp4" 0 1000 4000 0 4000 accentColor] 60 false false ::
          [])
        (Clip.mk "A" "A" "/m.mp4" 0 1000 4000 0 4000 accentColor) 2000 =
      [Track.mk "track_1" "Audio 1" TrackType.AUDIO [] 60 false false] ++
        { Track.mk "track_0" "Video 1" TrackType.VIDEO
            [Clip.mk "A" "A" "/m.mp4" 0 1000 4000 0 4000 accentColor] 60 false false with
          clips :=
            ([Clip.mk "A" "A" "/m.mp4" 0 1000 4000 0 4000 accentColor].take 0) ++
              (Clip.mk "A" "A" "/m.mp4" 0 1000 (2000 - 1000) 0 (0 + (2000 - 1000))
                accentColor) ::
              (Clip.mk ("A" ++ "_split") ("A" ++ " (2)") "/m.mp4" 0 2000
                (4000 - (2000 - 1000)) (0 + (2000 - 1000)) 4000 accentColor) ::
              ([Clip.mk "A" "A" "/m.mp4" 0 1000 4000 0 4000 accentColor].drop 1) } ::
        [] ∧
    on_clip_split
        [Track.mk "track_0" "Video 1" TrackType.VIDEO
          [Clip.mk "A" "A" "/m.mp4" 0 1000 4000 0 4000 accentColor] 60 false false]
        (Clip.mk "A" "A" "/m.mp4" 0 1000 4000 0 4000 accentColor) 6000 =
      [Track.mk "track_0" "Video 1" TrackType.VIDEO
        [Clip.mk "A" "A" "/m.mp4" 0 1000 4000 0 4000 accentColor] 60 false false] :=
  ⟨c3_split_semantics.1 _ _ _ _ 2000 0
      (Clip.mk "A" "A" "/m.mp4" 0 1000 4000 0 4000 accentColor)
      (by decide) (by decide) (by decide) (by decide),
   c3_split_semantics.2 _ _ 6000 (by decide)⟩

/-! ### Lemmas about serialization and loading -/

lemma get_all_clips_append (a b : List Track) :
    get_all_clips (a ++ b) = get_all_clips a ++ get_all_clips b := by
  induction a with
  | nil => simp [get_all_clips]
  | cons t ts ih => simp [get_all_clips, ih]

lemma get_all_clips_growAux (k : Int) (n : Nat) :
    ∀ ts : List Track, get_all_clips (growAux ts k n) = get_all_clips ts := by
  induction n with
  | zero => intro ts; rfl
  | succ m ih =>
    intro ts
    rw [growAux, ih, get_all_clips_append]
    simp [get_all_clips, trackFor]

lemma get_all_clips_growTracks (ts : List Track) (k : Int) :
    get_all_clips (growTracks ts k) = get_all_clips ts :=
  get_all_clips_growAux k _ ts

lemma length_growAux (k : Int) (n : Nat) :
    ∀ ts : List Track, (growAux ts k n).length = ts.length + n := by
  induction n with
  | zero => intro ts; rfl
  | succ m ih =>
    intro ts
    rw [growAux, ih]
    simp
    omega

lemma lt_length_growTracks (ts : List Track) (k : Int) :
    k < ((growTracks ts k).length : Int) := by
  unfold growTracks
  rw [length_growAux]
  push_cast
  omega

lemma get_all_clips_appendClipAt {ts : List Track} {k : Nat} (c : Clip)
    (hk : k < ts.length) :
    (get_all_clips (appendClipAt ts k c)).Perm (c :: get_all_clips ts) := by
  induction ts generalizing k with
  | nil => simp at hk
  | cons t rest ih =>
    cases k with
    | zero =>
      simp only [appendClipAt, get_all_clips]
      have h1 : (t.clips ++ [c]) ++ get_all_clips rest =
          t.clips ++ c :: get_all_clips rest := by simp
      rw [h1]
      exact List.perm_middle
    | succ n =>
      simp only [appendClipAt, get_all_clips]
      have hn : n < rest.length := by simpa using hk
      exact ((ih hn).append_left t.clips).trans List.perm_middle

lemma record_to_clip_clip_to_record (c : Clip) :
    record_to_clip (clip_to_record c) = some c := rfl

lemma get_all_clips_clear (ts : List Track) : get_all_clips (clear_tracks ts) = [] := by
  induction ts with
  | nil => rfl
  | cons t ts ih => simpa [clear_tracks, get_all_clips] using ih

lemma loadOne_ok {r : ClipRecord} (ts : List Track) (hr : 0 ≤ r.track_index.getD 0) :
    ∃ ts1, loadOne ts r = Except.ok ts1 ∧
      (get_all_clips ts1).Perm (get_all_clips ts ++ (record_to_clip r).toList) := by
  cases hrc : record_to_clip r with
  | none =>
    refine ⟨growTracks ts (r.track_index.getD 0), ?_, ?_⟩
    · simp only [loadOne, hrc]
    · rw [get_all_clips_growTracks]
      simp
  | some c =>
    have hlt := lt_length_growTracks ts (r.track_index.getD 0)
    have heq : loadOne ts r =
        Except.ok (appendClipAt (growTracks ts (r.track_index.getD 0))
          (r.track_index.getD 0).toNat c) := by
      simp only [loadOne, hrc]
      rw [if_pos ⟨hr, hlt⟩]
    refine ⟨_, heq, ?_⟩
    have h1 : (r.track_index.getD 0).toNat <
        (growTracks ts (r.track_index.getD 0)).length := by omega
    have h2 := get_all_clips_appendClipAt c h1
    rw [get_all_clips_growTracks] at h2
    simp only [Option.toList]
    exact h2.trans (List.perm_append_singleton _ _).symm

lemma loadRecords_perm :
    ∀ (records : List ClipRecord) (ts : List Track),
      (∀ r ∈ records, 0 ≤ r.track_index.getD 0) →
      ∃ ts2, loadRecords ts records = Except.ok ts2 ∧
        (get_all_clips ts2).Perm
          (get_all_clips ts ++ records.filterMap record_to_clip) := by
  intro records
  induction records with
  | nil => intro ts _; exact ⟨ts, rfl, by simp⟩
  | cons r rs ih =>
    intro ts h
    obtain ⟨ts1, hts1, hperm1⟩ := loadOne_ok ts (h r (List.mem_cons_self _ _))
    obtain ⟨ts2, hts2, hperm2⟩ := ih ts1 fun r' hr' => h r' (List.mem_cons_of_mem _ hr')
    refine ⟨ts2, by simp [loadRecords, hts1, hts2], ?_⟩
    refine hperm2.trans ?_
    refine (hperm1.append_right (rs.filterMap record_to_clip)).trans ?_
    rw [List.append_assoc]
    cases hrc : record_to_clip r <;> simp [List.filterMap_cons, hrc]

lemma filterMap_record_roundtrip (cs : List Clip) :
    List.filterMap (record_to_clip ∘ clip_to_record) cs = cs := by
  induction cs with
  | nil => rfl
  | cons c cs ih =>
    simp [List.filterMap_cons, Function.comp, record_to_clip_clip_to_record, ih]

/-- C2: for every timeline state (with clips referencing their track by a
nonnegative index, as the data model prescribes),
`load_clips (get_clips_data ·)` succeeds and reproduces a clip collection that
is a permutation — hence set-equal, field for field over all nine fields — of
the collection held before the call. -/
theorem c2_roundtrip :
    ∀ tracks : List Track,
      (∀ c ∈ get_all_clips tracks, 0 ≤ c.track_index) →
      ∃ tracks1, load_clips tracks (get_clips_data tracks) = Except.ok tracks1 ∧
        (get_all_clips tracks1).Perm (get_all_clips tracks) := by
  intro tracks h
  have hyp : ∀ r ∈ get_clips_data tracks, 0 ≤ r.track_index.getD 0 := by
    intro r hr
    simp only [get_clips_data, List.mem_map] at hr
    obtain ⟨c, hc, rfl⟩ := hr
    simpa [clip_to_record] using h c hc
  obtain ⟨ts2, hok, hperm⟩ := loadRecords_perm (get_clips_data tracks) (clear_tracks tracks) hyp
  refine ⟨ts2, hok, ?_⟩
  rw [get_all_clips_clear] at hperm
  simpa [get_clips_data, List.filterMap_map, filterMap_record_roundtrip] using hperm

theorem c2_roundtrip_witness :
    ∃ tracks1,
      load_clips
          [Track.mk "track_0" "Video 1" TrackType.VIDEO
            [Clip.mk "A" "A" "/a.mp4" 0 0 5000 0 5000 accentColor,
             Clip.mk "B" "B" "/b.mp4" 0 5000 3000 0 3000 accentColor] 60 false false,
           Track.mk "track_1" "Audio 1" TrackType.AUDIO
            [Clip.mk "C" "C" "/c.wav" 1 0 4000 0 4000 accentColor] 60 false false]
          (get_clips_data
            [Track.mk "track_0" "Video 1" TrackType.VIDEO
              [Clip.mk "A" "A" "/a.mp4" 0 0 5000 0 5000 accentColor,
               Clip.mk "B" "B" "/b.mp4" 0 5000 3000 0 3000 accentColor] 60 false false,
             Track.mk "track_1" "Audio 1" TrackType.AUDIO
              [Clip.mk "C" "C" "/c.wav" 1 0 4000 0 4000 accentColor] 60 false false]) =
        Except.ok tracks1 ∧
      (get_all_clips tracks1).Perm
        (get_all_clips
          [Track.mk "track_0" "Video 1" TrackType.VIDEO
            [Clip.mk "A" "A" "/a.mp4" 0 0 5000 0 5000 accentColor,
             Clip.mk "B" "B" "/b.mp4" 0 5000 3000 0 3000 accentColor] 60 false false,
           Track.mk "track_1" "Audio 1" TrackType.AUDIO
            [Clip.mk "C" "C" "/c.wav" 1 0 4000 0 4000 accentColor] 60 false false]) :=
  c2_roundtrip _ (by decide)

/-- C7 (amended): `load_clips` loads every well-formed record and skips, with
a diagnostic, every record missing a required key (`id`, `name`,
`file_path`), continuing with the remainder — provided every record's
effective track index is nonnegative.  A record whose negative `track_index`
exceeds the track count in magnitude instead raises an uncaught `IndexError`
that aborts the rest of the load (see the counterexample). -/
theorem c7_load_skips_malformed :
    ∀ (tracks : List Track) (records : List ClipRecord),
      (∀ r ∈ records, 0 ≤ r.track_index.getD 0) →
      ∃ tracks1, load_clips tracks records = Except.ok tracks1 ∧
        (get_all_clips tracks1).Perm (records.filterMap record_to_clip) := by
  intro tracks records h
  obtain ⟨ts2, hok, hperm⟩ := loadRecords_perm records (clear_tracks tracks) h
  rw [get_all_clips_clear] at hperm
  exact ⟨ts2, hok, by simpa using hperm⟩

theorem c7_load_skips_malformed_witness :
    ∃ tracks1,
      load_clips [Track.mk "track_0" "Video 1" TrackType.VIDEO [] 60 false false]
          [ClipRecord.mk (some "a") (some "n") (some "/m.mp4") (some 1) (some 0)
            (some 2000) (some 0) (some 2000) (some "#ffffff"),
           ClipRecord.mk (some "bad") none (some "/m.mp4") (some 0) none none none
            none none,
           ClipRecord.mk (some "b") (some "n2") (some "/m.mp4") none none none none
            none none] =
        Except.ok tracks1 ∧
      (get_all_clips tracks1).Perm
        ([ClipRecord.mk (some "a") (some "n") (some "/m.mp4") (some 1) (some 0)
            (some 2000) (some 0) (some 2000) (some "#ffffff"),
          ClipRecord.mk (some "bad") none (some "/m.mp4") (some 0) none none none
            none none,
          ClipRecord.mk (some "b") (some "n2") (some "/m.mp4") none none none none
            none none].filterMap record_to_clip) :=
  c7_load_skips_malformed _ _ (by decide)

/-- C7 counterexample: on a timeline with the two default tracks, a single
record with `track_index = -3` makes `load_clips` hit
`self._tracks[-3].clips.append(...)` with only two tracks: the `IndexError`
is not among the caught exception classes (`KeyError`, `ValueError`), so the
load aborts instead of skipping the record — `load_clips` can raise. -/
theorem c7_negative_track_index_aborts :
    load_clips
        [Track.mk "track_0" "Video 1" TrackType.VIDEO [] 60 false false,
         Track.mk "track_1" "Audio 1" TrackType.AUDIO [] 60 false false]
        [ClipRecord.mk (some "a") (some "n") (some "/m.mp4") (some (-3)) none none
          none none none] =
      Except.error "IndexError: list index out of range" := by
  rfl

/-! ### The coordinate mapper round trip -/

lemma qtrunc_sub_intCast (q : ℚ) (o : Int) :
    qtrunc (q - o) + o = ⌊q⌋ ∨ qtrunc (q - o) + o = ⌈q⌉ := by
  unfold qtrunc
  split
  · left
    rw [Int.floor_sub_int]
    omega
  · right
    rw [Int.ceil_sub_int]
    omega

lemma roundtrip_bound_aux (zoom : ℚ) (offset t x : Int)
    (hz1 : 1/10 ≤ zoom) (hm0 : 0 ≤ x + offset)
    (hmlb : (t : ℚ) * ((100 * zoom) / 1000) - 1 < ((x + offset : Int) : ℚ))
    (hmub : ((x + offset : Int) : ℚ) < (t : ℚ) * ((100 * zoom) / 1000) + 1) :
    |x_to_time zoom offset x - t| ≤ ⌈(10 : ℚ) / zoom⌉ := by
  have hzpos : (0 : ℚ) < zoom := lt_of_lt_of_le (by norm_num) hz1
  set p : ℚ := (100 * zoom) / 1000 with hp
  have hp0 : 0 < p := by rw [hp]; positivity
  set m : Int := x + offset with hm
  have hxt : x_to_time zoom offset x = ⌊(m : ℚ) / p⌋ := by
    unfold x_to_time qtrunc
    have hcast : ((x : ℚ) + (offset : ℚ)) = ((m : Int) : ℚ) := by rw [hm]; push_cast; ring
    rw [hcast, if_pos (div_nonneg (by exact_mod_cast hm0) hp0.le)]
  have hinv : 1 / p = 10 / zoom := by
    rw [hp]
    rw [div_eq_div_iff (by positivity) (by positivity)]
    ring
  have hub : (⌊(m : ℚ) / p⌋ : ℚ) < (t : ℚ) + 10 / zoom := by
    have h1 : (m : ℚ) / p < ((t : ℚ) * p + 1) / p := by gcongr
    have h2 : ((t : ℚ) * p + 1) / p = (t : ℚ) + 1 / p := by
      field_simp
    calc (⌊(m : ℚ) / p⌋ : ℚ) ≤ (m : ℚ) / p := Int.floor_le _
      _ < (t : ℚ) + 1 / p := by rw [← h2]; exact h1
      _ = (t : ℚ) + 10 / zoom := by rw [hinv]
  have hlb : (t : ℚ) - 10 / zoom - 1 < (⌊(m : ℚ) / p⌋ : ℚ) := by
    have h1 : ((t : ℚ) * p - 1) / p < (m : ℚ) / p := by gcongr
    have h2 : ((t : ℚ) * p - 1) / p = (t : ℚ) - 1 / p := by
      field_simp
    have h3 := Int.sub_one_lt_floor ((m : ℚ) / p)
    calc (t : ℚ) - 10 / zoom - 1 = ((t : ℚ) - 1 / p) - 1 := by rw [hinv]
      _ < (m : ℚ) / p - 1 := by rw [← h2]; linarith
      _ < (⌊(m : ℚ) / p⌋ : ℚ) := h3
  rw [hxt]
  have hc1 : ⌊(m : ℚ) / p⌋ - t ≤ ⌈(10 : ℚ) / zoom⌉ := by
    have hq : ((⌊(m : ℚ) / p⌋ - t : Int) : ℚ) < 10 / zoom := by push_cast; linarith
    have h4 := Int.lt_ceil.mpr hq
    omega
  have hc2 : t - ⌊(m : ℚ) / p⌋ ≤ ⌈(10 : ℚ) / zoom⌉ := by
    have hq : ((t - ⌊(m : ℚ) / p⌋ : Int) : ℚ) < 10 / zoom + 1 := by push_cast; linarith
    have h4 := Int.lt_ceil.mpr hq
    rw [Int.ceil_add_one] at h4
    omega
  rw [abs_le]
  exact ⟨by omega, hc1⟩

/-- C5 (amended): for every `t ≥ 0`, `zoom ∈ [0.1, 10]` and every offset, the
round trip `x_to_time (time_to_x t)` returns within the *ceiling* of the time
spanned by one pixel (`10 / zoom` ms per pixel); the un-rounded one-pixel
bound itself can be exceeded by the final millisecond truncation (see the
counterexample). -/
theorem c5_roundtrip_within_ceil_pixel :
    ∀ (zoom : ℚ) (offset t : Int),
      1/10 ≤ zoom → zoom ≤ 10 → 0 ≤ t →
      |x_to_time zoom offset (time_to_x zoom offset t) - t| ≤ ⌈(10 : ℚ) / zoom⌉ := by
  intro zoom offset t hz1 _hz2 ht
  have hzpos : (0 : ℚ) < zoom := lt_of_lt_of_le (by norm_num) hz1
  have hp0 : (0 : ℚ) < (100 * zoom) / 1000 := by positivity
  have hd0 : 0 ≤ (t : ℚ) * ((100 * zoom) / 1000) :=
    mul_nonneg (by exact_mod_cast ht) hp0.le
  obtain hm | hm := qtrunc_sub_intCast ((t : ℚ) * ((100 * zoom) / 1000)) offset
  · have hm' : time_to_x zoom offset t + offset =
        ⌊(t : ℚ) * ((100 * zoom) / 1000)⌋ := hm
    refine roundtrip_bound_aux zoom offset t _ hz1 ?_ ?_ ?_
    · rw [hm']
      exact Int.floor_nonneg.mpr hd0
    · rw [hm']
      exact Int.sub_one_lt_floor _
    · rw [hm']
      have := Int.floor_le ((t : ℚ) * ((100 * zoom) / 1000))
      linarith
  · have hm' : time_to_x zoom offset t + offset =
        ⌈(t : ℚ) * ((100 * zoom) / 1000)⌉ := hm
    refine roundtrip_bound_aux zoom offset t _ hz1 ?_ ?_ ?_
    · rw [hm']
      exact Int.ceil_nonneg hd0
    · rw [hm']
      have := Int.le_ceil ((t : ℚ) * ((100 * zoom) / 1000))
      linarith
    · rw [hm']
      exact Int.ceil_lt_add_one _

theorem c5_roundtrip_within_ceil_pixel_witness :
    |x_to_time 1 7 (time_to_x 1 7 1234) - 1234| ≤ ⌈(10 : ℚ) / 1⌉ :=
  c5_roundtrip_within_ceil_pixel 1 7 1234 (by norm_num) (by norm_num) (by norm_num)

/-- C5 counterexample: at `zoom = 3.75` (in `[0.1, 10]`), `offset = 0` and
`t = 5` ms, the round trip returns `2` ms — an error of `3` ms, while one
pixel spans only `10 / 3.75 = 8/3` ms, so the round-trip error exceeds the
time spanned by one pixel at that zoom. -/
theorem c5_counterexample :
    (1/10 : ℚ) ≤ 15/4 ∧ (15/4 : ℚ) ≤ 10 ∧ (0 : Int) ≤ 5 ∧
    time_to_x (15/4 : ℚ) 0 5 = 1 ∧
    x_to_time (15/4 : ℚ) 0 1 = 2 ∧
    ¬ (((|x_to_time (15/4 : ℚ) 0 (time_to_x (15/4 : ℚ) 0 5) - 5| : Int) : ℚ) ≤
        10 / (15/4 : ℚ)) := by
  have e1 : time_to_x (15/4 : ℚ) 0 5 = 1 := by
    unfold time_to_x qtrunc
    rw [if_pos (by norm_num)]
    rw [show ((5 : Int) : ℚ) * ((100 * (15/4 : ℚ)) / 1000) - ((0 : Int) : ℚ) = 15/8 by
      push_cast
      norm_num]
    rw [Int.floor_eq_iff]
    norm_num
  have e2 : x_to_time (15/4 : ℚ) 0 1 = 2 := by
    unfold x_to_time qtrunc
    rw [if_pos (by norm_num)]
    rw [show (((1 : Int) : ℚ) + ((0 : Int) : ℚ)) / ((100 * (15/4 : ℚ)) / 1000) = 8/3 by
      push_cast
      norm_num]
    rw [Int.floor_eq_iff]
    norm_num
  refine ⟨by norm_num, by norm_num, by norm_num, e1, e2, ?_⟩
  rw [e1, e2]
  rw [show |(2 - 5 : Int)| = 3 by decide]
  push_cast
  norm_num

end Director
